import Mathlib

/-!
# svadilfari.lua, `src/utils.c`: the recursive finder and the clean routine

A shallow embedding of `find_with_extension`, `get_string_field`,
`get_bool_field`, `l_find` and `l_fullclean`, followed by the properties
of the natural-language specification that concern them.

Conventions of the embedding.

* A C string is a Lean `String`, one `Char` per C `char`; it holds no NUL.
  A `const char *` that may be `NULL` is an `Option String`.
* A call that does not come back (the process is killed) has the result
  `none`.
* The operating system is not part of the repository.  What it answers to
  the calls of the walk is data: a `Dir` is the stream of entries that
  `readdir` yields for an opened directory, and every entry carries what
  `stat` and `opendir` answer for the path the code builds for it.
* `size_t` is 64 bits wide, `int` 32 bits, `lua_Integer` 64 bits; the
  conversions between them are written out.
* The Lua result table is a list of key/value pairs with distinct keys.
-/

namespace Svadilfari

/-! ## Constants of `<sys/stat.h>` and `<limits.h>` (Linux values) -/

/-- Mask of the file-type bits of `st_mode`. -/
def S_IFMT : Nat := 0o170000
/-- File type: socket. -/
def S_IFSOCK : Nat := 0o140000
/-- File type: symbolic link (reported by `lstat` only). -/
def S_IFLNK : Nat := 0o120000
/-- File type: regular file. -/
def S_IFREG : Nat := 0o100000
/-- File type: block device. -/
def S_IFBLK : Nat := 0o060000
/-- File type: directory. -/
def S_IFDIR : Nat := 0o040000
/-- File type: character device. -/
def S_IFCHR : Nat := 0o020000
/-- File type: fifo. -/
def S_IFIFO : Nat := 0o010000
/-- Longest path, in chars, that the buffer `file` holds before its NUL. -/
def PATH_MAX : Nat := 4096

/-! ## The file system as the walk sees it -/

/-- The entries `readdir` yields for one opened directory, in the order it
yields them.  `entry d_name st opens sub rest` is one `struct dirent` named
`d_name`; `st` is the `st_mode` that `stat` stores for the path built for
the entry (`none` when `stat` fails), `opens` tells whether `opendir`
succeeds on that path, `sub` is what the directory behind it holds (listed
only if it opens), and `rest` are the entries `readdir` yields next. -/
inductive Dir where
  | nil : Dir
  | entry (d_name : String) (st : Option Nat) (opens : Bool) (sub : Dir) (rest : Dir) : Dir
  deriving DecidableEq

/-! ## The Lua side -/

/-- The result table under construction: integer keys, string values, at
most one pair per key. -/
abbrev LuaTable := List (Int × String)

/-- Effect of `lua_pushinteger k; lua_pushstring v; lua_settable(L, -3)`:
`t[k] = v`, replacing what `t[k]` held. -/
def lua_settable (t : LuaTable) (k : Int) (v : String) : LuaTable :=
  (k, v) :: t.filter (fun e => e.1 != k)

/-- Value of `t[k]`. -/
def lua_gettable (t : LuaTable) (k : Int) : Option String :=
  t.lookup k

/-- The values a table holds. -/
def LuaTable.values (t : LuaTable) : List String := t.map Prod.snd

/-- The keys a table holds. -/
def LuaTable.keys (t : LuaTable) : List Int := t.map Prod.fst

/-- A Lua value as the accessors of `utils.c` see it.  A number carries the
text `lua_tolstring` converts it to. -/
inductive LuaValue where
  | nil : LuaValue
  | boolean (b : Bool) : LuaValue
  | number (text : String) : LuaValue
  | string (s : String) : LuaValue
  | table (field : String → LuaValue) : LuaValue
  | other : LuaValue

/-! ## Integer conversions -/

/-- Conversion `size_t → int` of `return start;`. -/
def int_of_size_t (n : Nat) : Int :=
  if n % 2 ^ 32 < 2 ^ 31 then ((n % 2 ^ 32 : Nat) : Int) else ((n % 2 ^ 32 : Nat) : Int) - 2 ^ 32

/-- Conversion `int → size_t` of `start = find_with_extension(...)`. -/
def size_t_of_int (i : Int) : Nat :=
  (i % 2 ^ 64).toNat

/-- Conversion `size_t → lua_Integer` at `lua_pushinteger(L, start++)`. -/
def lua_Integer_of_size_t (n : Nat) : Int :=
  if n % 2 ^ 64 < 2 ^ 63 then ((n % 2 ^ 64 : Nat) : Int) else ((n % 2 ^ 64 : Nat) : Int) - 2 ^ 64

/-! ## C string helpers -/

/-- `strrchr` on the chars of a string: the suffix that starts at the last
occurrence of `c`, `none` for `NULL`. -/
def strrchr_chars : List Char → Char → Option (List Char)
  | [], _ => none
  | x :: xs, c =>
    match strrchr_chars xs c with
    | some r => some r
    | none => if x = c then some (x :: xs) else none

/-- `strrchr(s, c)`. -/
def strrchr (s : String) (c : Char) : Option String :=
  (strrchr_chars s.data c).map String.mk

/-- `snprintf(file, sizeof(file), "%s/%s", path, d_name)` with
`char file[PATH_MAX + 1]`: the joined path, cut after `PATH_MAX` chars. -/
def snprintf_file (path d_name : String) : String :=
  String.mk ((path.data ++ '/' :: d_name.data).take PATH_MAX)

/-- The test of line 58:
`extension == NULL || (filename_extension != NULL &&
 strcmp(&filename_extension[1], extension) == 0)`
with `filename_extension = strrchr(d_name, '.')`. -/
def extension_matches (d_name : String) (extension : Option String) : Bool :=
  match extension with
  | none => true
  | some ext =>
    match strrchr d_name '.' with
    | none => false
    | some filename_extension => decide (String.mk (filename_extension.data.drop 1) = ext)

/-! ## `find_with_extension` -/

/-- The `while ((entry = readdir(dir)) != NULL)` loop of
`find_with_extension` (lines 41 to 65), from the state `(L, start)`, over
the entries of the directory opened at `path`.  The recursive call of line
52 is written out in place: `opendir(file)` failing gives `(L, 0)`
(line 37), else the loop runs over `sub` and its `start` is returned as
an `int` (line 67). -/
def readdir_loop (L : LuaTable) (path : String) (extension : Option String)
    (recursive : Bool) (start : Nat) : Dir → LuaTable × Nat
  | .nil => (L, start)
  | .entry d_name st opens sub rest =>
    let st_mode := st.getD 0
    let file := snprintf_file path d_name
    if (st_mode &&& S_IFDIR) > 0 && d_name != "." && d_name != ".." && recursive then
      let r : LuaTable × Int :=
        match opens with
        | false => (L, 0)
        | true =>
          let q := readdir_loop L file extension recursive start sub
          (q.1, int_of_size_t q.2)
      readdir_loop r.1 path extension recursive (size_t_of_int r.2) rest
    else if (st_mode &&& S_IFREG) != 0 then
      if extension_matches d_name extension then
        readdir_loop (lua_settable L (lua_Integer_of_size_t start) file) path extension recursive
          ((start + 1) % 2 ^ 64) rest
      else
        readdir_loop L path extension recursive start rest
    else
      readdir_loop L path extension recursive start rest

/-- `find_with_extension(L, path, extension, recursive, start)` (lines 33
to 68); `opens` and `dir` are the answer of `opendir(path)`.  Gives the
table and the `int` the function returns. -/
def find_with_extension (L : LuaTable) (path : String) (extension : Option String)
    (recursive : Bool) (start : Nat) (opens : Bool) (dir : Dir) : LuaTable × Int :=
  match opens with
  | false => (L, 0)
  | true =>
    let q := readdir_loop L path extension recursive start dir
    (q.1, int_of_size_t q.2)

/-! ## Field accessors and `l_find` -/

/-- `get_string_field(L, key)` on the table on top of the stack:
`lua_tolstring` gives the string for a string or a number, `NULL` else. -/
def get_string_field (field : String → LuaValue) (key : String) : Option String :=
  match field key with
  | .string s => some s
  | .number text => some text
  | _ => none

/-- `get_bool_field(L, key)`: `lua_isboolean(L, -1) && lua_toboolean(L, -1)`. -/
def get_bool_field (field : String → LuaValue) (key : String) : Bool :=
  match field key with
  | .boolean b => b
  | _ => false

/-- `l_find(L)` called with the single argument `arg` (lines 88 to 101);
`fs` answers `opendir` for the root path, `none` meaning `NULL`.  The
result is the list of values handed back to the host (`return 0` gives
none, `return 1` the table).  When the field `path` is neither a string nor
a number, `get_string_field` gives `NULL` and line 99 hands it to `opendir`
untested: `opendir` reads through the pointer, the process is killed and
the call gives no result, which is `none` here. -/
def l_find (fs : String → Option Dir) (arg : LuaValue) : Option (List LuaTable) :=
  match arg with
  | .table field =>
    let recursive := get_bool_field field "recursive"
    let path := get_string_field field "path"
    let extension := get_string_field field "extension"
    let L : LuaTable := []
    match path with
    | none => none
    | some p =>
      let r := match fs p with
        | some dir => find_with_extension L p extension recursive 1 true dir
        | none => find_with_extension L p extension recursive 1 false .nil
      some [r.1]
  | _ => some []

/-! ## `l_fullclean` -/

/-- Kind of a node of the file system the clean routine acts on. -/
inductive Node where
  | file : Node
  | directory : Node
  deriving DecidableEq

/-- The paths that exist, each with its kind, written in canonical form
(no trailing slash, no `.` or `..` component, no doubled slash, no
symbolic link).  Ownership and permissions are left out: removing an
existing file or an empty directory succeeds. -/
abbrev Files := List (String × Node)

/-- The path a directory operation resolves `path` to: trailing slashes are
dropped (`out/` names the directory `out`), a path made of slashes only is
the root.  Other ways of writing a path are not modelled. -/
def resolve (path : String) : String :=
  let r := String.mk (path.data.reverse.dropWhile (fun c => c == '/')).reverse
  if r = "" ∧ path ≠ "" then "/" else r

/-- Kind of the node at `path`, `none` when nothing is there. -/
def Files.kind (fs : Files) (path : String) : Option Node :=
  fs.lookup path

/-- Whether some node lies below the directory `path`. -/
def Files.hasEntries (fs : Files) (path : String) : Bool :=
  fs.any (fun n => (path ++ "/").data.isPrefixOf n.1.data && n.1 != path ++ "/")

/-- Effect of `rmdir(path)`: the directory `path` resolves to is removed
if it is empty, every other case fails and leaves the files as they are. -/
def rmdir (fs : Files) (path : String) : Files :=
  if fs.kind (resolve path) = some Node.directory ∧ fs.hasEntries (resolve path) = false then
    fs.filter (fun n => n.1 != resolve path)
  else fs

/-- Effect of `remove(path)`: `unlink(path)` when `path` names a file (a
path with a trailing slash names none), else `rmdir(path)`; fails without
effect on a `NULL` or missing path. -/
def remove (fs : Files) (path : Option String) : Files :=
  match path with
  | none => fs
  | some p =>
    match fs.kind p with
    | some Node.file => fs.filter (fun n => n.1 != p)
    | _ => rmdir fs p

/-- The library calls `l_fullclean` makes, as recorded in order.
`wait pid` is the call `wait(NULL)` that came back with `pid`, the child
whose termination ended the wait. -/
inductive Call where
  | fork : Call
  | perror (msg : String) : Call
  | execlp (file : String) (argv : List String) : Call
  | wait (pid : Int) : Call
  | rmdir (path : String) : Call
  | remove (path : Option String) : Call
  deriving DecidableEq

/-- How the process followed leaves `l_fullclean`: it returns `n` values to
the scripting host and goes on running the host, or its image was replaced
by the tool and nothing of the host runs in it any more. -/
inductive Leave where
  | returns (n : Nat) : Leave
  | replaced : Leave
  deriving DecidableEq

/-- What the operating system answers to the process followed: the value
`fork()` returns in it, whether `execlp` replaces the image, the exit
status of the forked child, the other children the host process has when
`l_fullclean` is called, the child whose termination `wait(NULL)` reports
(`wait` takes no process id: it comes back as soon as any child of the
caller has terminated), and the files as they are when `wait(NULL)` comes
back, after what the tool and every other process did to them. -/
structure Os where
  fork : Int
  execlp_ok : Bool
  child_status : Int
  others : List Int
  reaped : Int
  wait : Files → Files

/-- One run of `l_fullclean` in one process: the calls made, how the
process leaves the function, and the files afterwards. -/
structure Run where
  calls : List Call
  leave : Leave
  files : Files
  deriving DecidableEq

/-- The argument vector a variadic `execlp(file, arg0, ..., NULL)` builds:
the arguments up to the first `NULL`. -/
def execlp_argv : List (Option String) → List String
  | some a :: rest => a :: execlp_argv rest
  | _ => []

/-- `l_fullclean(L)` called with the single argument `arg` (lines 132 to
154), followed in the process in which `fork()` returns `os.fork`. -/
def l_fullclean (os : Os) (files : Files) (arg : LuaValue) : Run :=
  match arg with
  | .table field =>
    let output := get_string_field field "output"
    let buildFolder := get_string_field field "buildFolder"
    let res := os.fork
    if res < 0 then
      { calls := [Call.fork, Call.perror "Fork failed"], leave := Leave.returns 0, files := files }
    else if res = 0 then
      let argv := execlp_argv [some "ninja", some "-f", output, some "-t", some "clean"]
      if os.execlp_ok then
        { calls := [Call.fork, Call.execlp "ninja" argv], leave := Leave.replaced, files := files }
      else
        { calls := [Call.fork, Call.execlp "ninja" argv], leave := Leave.returns 0, files := files }
    else
      let files1 := os.wait files
      match buildFolder with
      | some b =>
        { calls := [Call.fork, Call.wait os.reaped, Call.rmdir b, Call.remove output],
          leave := Leave.returns 0,
          files := remove (rmdir files1 b) output }
      | none =>
        { calls := [Call.fork, Call.wait os.reaped, Call.remove output],
          leave := Leave.returns 0,
          files := remove files1 output }
  | _ => { calls := [], leave := Leave.returns 0, files := files }

/-! ## Notions of the specification -/

/-- The macro `S_ISDIR` of `<sys/stat.h>` on a `stat` answer. -/
def isDirectory (st : Option Nat) : Bool :=
  match st with
  | some m => m &&& S_IFMT == S_IFDIR
  | none => false

/-- The macro `S_ISREG` of `<sys/stat.h>` on a `stat` answer. -/
def isRegular (st : Option Nat) : Bool :=
  match st with
  | some m => m &&& S_IFMT == S_IFREG
  | none => false

/-- The path of the entry `name` of the directory `path`. -/
def joinPath (path name : String) : String :=
  path ++ "/" ++ name

/-- The name `n` has a final extension equal to `E`: `n` is some stem, a
dot, and `E`, where `E` holds no dot (so that the dot is the last one). -/
def HasExtension (n E : String) : Prop :=
  ∃ stem : List Char, n.data = stem ++ '.' :: E.data ∧ '.' ∉ E.data

/-- The regular files located under the directory `path` at any depth, as
pairs of path and name, in pre-order: an entry that is a directory, other
than `.` and `..`, contributes the regular files under it, at the place
where the entry stands among its siblings. -/
def regularFilesUnder (path : String) : Dir → List (String × String)
  | .nil => []
  | .entry d_name st _ sub rest =>
    (if isDirectory st && d_name != "." && d_name != ".." then
        regularFilesUnder (joinPath path d_name) sub
      else if isRegular st then [(joinPath path d_name, d_name)]
      else []) ++ regularFilesUnder path rest

/-- The regular files that are direct entries of the directory `path`, as
pairs of path and name, in the order of the entries. -/
def regularFilesIn (path : String) : Dir → List (String × String)
  | .nil => []
  | .entry d_name st _ _ rest =>
    (if isRegular st then [(joinPath path d_name, d_name)] else []) ++ regularFilesIn path rest

/-- The sequence `xs` stored under the keys `start`, `start + 1`, ... : the
table that appending the elements of `xs` in order builds, last one first. -/
def seqTable (start : Nat) : List String → LuaTable
  | [] => []
  | x :: xs => seqTable (start + 1) xs ++ [((start : Int), x)]

/-- What an operating system presents to the walk at the directory `path`:
`stat` reports one of the six kinds it can report (it follows symbolic
links), the entries `.` and `..` are directories, and a path `stat` answers
for fits the buffer `file`. -/
def presentable (path : String) : Dir → Bool
  | .nil => true
  | .entry d_name st _ sub rest =>
    (match st with
      | none => true
      | some m =>
        [S_IFIFO, S_IFCHR, S_IFDIR, S_IFBLK, S_IFREG, S_IFSOCK].contains (m &&& S_IFMT)
          && decide (path.length + 1 + d_name.length ≤ PATH_MAX)) &&
    (!(d_name == "." || d_name == "..") || st.isNone || isDirectory st) &&
    presentable (joinPath path d_name) sub && presentable path rest

/-- Every directory below (other than `.` and `..`) opens, at every depth,
and no entry is a socket or a block device. -/
def walkable : Dir → Bool
  | .nil => true
  | .entry d_name st opens sub rest =>
    (!(isDirectory st && d_name != "." && d_name != "..") || (opens && walkable sub)) &&
    (match st with
      | none => true
      | some m => m &&& S_IFMT != S_IFSOCK && m &&& S_IFMT != S_IFBLK) &&
    walkable rest

/-- Every directory below (other than `.` and `..`) opens, at every depth. -/
def directoriesOpen : Dir → Bool
  | .nil => true
  | .entry d_name st opens sub rest =>
    (!(isDirectory st && d_name != "." && d_name != "..") || (opens && directoriesOpen sub)) &&
    directoriesOpen rest

/-- The paths of the regular files under `path` whose name passes the
extension test, in pre-order. -/
def matchingUnder (path : String) (extension : Option String) (dir : Dir) : List String :=
  ((regularFilesUnder path dir).filter (fun f => extension_matches f.2 extension)).map Prod.fst

/-- No direct entry of the directory is a socket. -/
def noSocketEntry : Dir → Bool
  | .nil => true
  | .entry _ st _ _ rest =>
    (match st with
      | none => true
      | some m => m &&& S_IFMT != S_IFSOCK) &&
    noSocketEntry rest

/-- The paths of the regular files directly in `path` whose name passes the
extension test, in the order of the entries. -/
def matchingIn (path : String) (extension : Option String) (dir : Dir) : List String :=
  ((regularFilesIn path dir).filter (fun f => extension_matches f.2 extension)).map Prod.fst

/-! ## Concrete file systems and calls -/

/-- A regular file entry, mode 0644. -/
def regularFile (d_name : String) (rest : Dir) : Dir :=
  Dir.entry d_name (some 0o100644) false Dir.nil rest

/-- A socket entry, mode 0755. -/
def socketFile (d_name : String) (rest : Dir) : Dir :=
  Dir.entry d_name (some 0o140755) false Dir.nil rest

/-- A block device entry, mode 0660. -/
def blockDevice (d_name : String) (rest : Dir) : Dir :=
  Dir.entry d_name (some 0o060660) false Dir.nil rest

/-- A directory entry, mode 0755, that opens and lists `sub`. -/
def openDirectory (d_name : String) (sub rest : Dir) : Dir :=
  Dir.entry d_name (some 0o040755) true sub rest

/-- A directory entry, mode 0700 of another owner, that does not open and
holds `sub`. -/
def lockedDirectory (d_name : String) (sub rest : Dir) : Dir :=
  Dir.entry d_name (some 0o040700) false sub rest

/-- The file system in which `root` names the directory `dir` and no other
path opens. -/
def fsWith (root : String) (dir : Dir) : String → Option Dir :=
  fun p => if p = root then some dir else none

/-- The table `{path = path, extension = extension, recursive = recursive}`;
an absent field is `nil`. -/
def searchSpec (path : String) (extension : Option String) (recursive : Option Bool) : LuaValue :=
  LuaValue.table (fun key =>
    if key = "path" then LuaValue.string path
    else if key = "extension" then
      (match extension with
       | some e => LuaValue.string e
       | none => LuaValue.nil)
    else if key = "recursive" then
      (match recursive with
       | some b => LuaValue.boolean b
       | none => LuaValue.nil)
    else LuaValue.nil)

/-- The table `{output = output, buildFolder = buildFolder}`. -/
def cleanSpec (output : String) (buildFolder : Option String) : LuaValue :=
  LuaValue.table (fun key =>
    if key = "output" then LuaValue.string output
    else if key = "buildFolder" then
      (match buildFolder with
       | some b => LuaValue.string b
       | none => LuaValue.nil)
    else LuaValue.nil)

/-- The entries `.` and `..` of a directory, followed by `rest`. -/
def dotEntries (rest : Dir) : Dir :=
  Dir.entry "." (some 0o040755) true Dir.nil (Dir.entry ".." (some 0o040755) true Dir.nil rest)

/-- Tree `src`: `.`, `..`, `a.c`, a directory `locked` that does not open
(holding `hidden.c`), then `b.c` and `c.c`. -/
def lockedTree : Dir :=
  dotEntries (regularFile "a.c" (lockedDirectory "locked" (regularFile "hidden.c" Dir.nil)
    (regularFile "b.c" (regularFile "c.c" Dir.nil))))

/-- Tree `src`: `.`, `..`, `a.c`, an open directory `sub` holding `d.c`, a
socket `ctl.sock`, then `b.c` and `c.c`.  Every directory in it opens. -/
def socketTree : Dir :=
  dotEntries (regularFile "a.c" (openDirectory "sub" (dotEntries (regularFile "d.c" Dir.nil))
    (socketFile "ctl.sock" (regularFile "b.c" (regularFile "c.c" Dir.nil)))))

/-- Tree `run`: `.`, `..`, a regular file `main.c`, a socket `agent.sock`,
and an open directory `sub` holding `deep.c`. -/
def flatTree : Dir :=
  dotEntries (regularFile "main.c" (socketFile "agent.sock"
    (openDirectory "sub" (dotEntries (regularFile "deep.c" Dir.nil)) Dir.nil)))

/-- Tree `dev`: `.`, `..`, `a.c`, a block device `sda`, then `b.c`. -/
def deviceTree : Dir :=
  dotEntries (regularFile "a.c" (blockDevice "sda" (regularFile "b.c" Dir.nil)))

/-- Tree `src`: `.`, `..`, and a directory `locked` that does not open and
holds the regular file `hidden.c`. -/
def hiddenTree : Dir :=
  dotEntries (lockedDirectory "locked" (regularFile "hidden.c" Dir.nil) Dir.nil)

/-- Tree `src`: `a.c`, an open directory `sub` holding `d.c` and `e.h`, a
fifo `pipe`, the entries `.` and `..`, then `b.c`. -/
def plainTree : Dir :=
  regularFile "a.c" (openDirectory "sub" (regularFile "d.c" (regularFile "e.h" Dir.nil))
    (Dir.entry "pipe" (some 0o010644) false Dir.nil
      (Dir.entry "." (some 0o040755) true (regularFile "a.c" Dir.nil)
        (Dir.entry ".." (some 0o040755) true Dir.nil
          (regularFile "b.c" Dir.nil)))))

/-- The operating system seen by the process in which `fork()` returns
`res`, with `execlp` succeeding or not, a child that exits with status 1
and leaves the files as they are, in a host without other children. -/
def osWith (res : Int) (execlp_ok : Bool) : Os :=
  { fork := res, execlp_ok := execlp_ok, child_status := 1, others := [], reaped := res,
    wait := fun fs => fs }

/-- Files: `build.ninja`, and a directory `out` holding `out/main.o`. -/
def buildFiles : Files :=
  [("build.ninja", Node.file), ("out", Node.directory), ("out/main.o", Node.file)]

/-! ## Auxiliary facts -/

theorem land_type_bits (m k b : Nat) (h : m &&& S_IFMT = k) (hb : S_IFMT &&& b = b) :
    m &&& b = k &&& b := by
  rw [← h, Nat.land_assoc, hb]

theorem strrchr_chars_none_of_not_mem (c : Char) :
    ∀ l : List Char, c ∉ l → strrchr_chars l c = none := by
  intro l
  induction l with
  | nil => intro _; rfl
  | cons x xs ih =>
    intro h
    have hx : ¬ x = c := fun e => h (by simp [e])
    have hxs : c ∉ xs := fun e => h (List.mem_cons_of_mem _ e)
    simp [strrchr_chars, ih hxs, hx]

theorem strrchr_chars_append (c : Char) (tail : List Char) (h : c ∉ tail) :
    ∀ stem : List Char, strrchr_chars (stem ++ c :: tail) c = some (c :: tail) := by
  intro stem
  induction stem with
  | nil => simp [strrchr_chars, strrchr_chars_none_of_not_mem c tail h]
  | cons x xs ih => simp [strrchr_chars, ih]

theorem strrchr_chars_none (c : Char) :
    ∀ l : List Char, strrchr_chars l c = none → c ∉ l := by
  intro l
  induction l with
  | nil => intro _; simp
  | cons x xs ih =>
    intro h
    cases hxs : strrchr_chars xs c with
    | some q => simp [strrchr_chars, hxs] at h
    | none =>
      simp [strrchr_chars, hxs] at h
      intro hmem
      rcases List.mem_cons.mp hmem with e | e
      · exact h e.symm
      · exact ih hxs e

theorem strrchr_chars_some (c : Char) :
    ∀ (l r : List Char), strrchr_chars l c = some r →
      ∃ stem tail, l = stem ++ c :: tail ∧ c ∉ tail ∧ r = c :: tail := by
  intro l
  induction l with
  | nil => intro r h; simp [strrchr_chars] at h
  | cons x xs ih =>
    intro r h
    cases hxs : strrchr_chars xs c with
    | some q =>
      simp [strrchr_chars, hxs] at h
      obtain ⟨stem, tail, h1, h2, h3⟩ := ih q hxs
      exact ⟨x :: stem, tail, by simp [h1], h2, by rw [← h, h3]⟩
    | none =>
      simp [strrchr_chars, hxs] at h
      obtain ⟨hx, hr⟩ := h
      exact ⟨[], xs, by simp [hx], strrchr_chars_none c xs hxs, by rw [← hr, hx]⟩

/-- The extension test with a requested extension holds exactly for the
names made of a stem, a dot and the extension, the extension without dot. -/
theorem extension_matches_iff (n E : String) :
    extension_matches n (some E) = true ↔ HasExtension n E := by
  unfold extension_matches strrchr HasExtension
  constructor
  · intro h
    cases hs : strrchr_chars n.data '.' with
    | none => simp [hs] at h
    | some r =>
      simp [hs] at h
      obtain ⟨stem, tail, h1, h2, h3⟩ := strrchr_chars_some _ _ _ hs
      subst h3
      simp at h
      subst h
      exact ⟨stem, h1, h2⟩
  · rintro ⟨stem, h1, h2⟩
    rw [h1, strrchr_chars_append _ _ h2]
    simp

theorem extension_matches_no_dot (n E : String) (h : '.' ∉ n.data) :
    extension_matches n (some E) = false := by
  unfold extension_matches strrchr
  rw [strrchr_chars_none_of_not_mem _ _ h]
  rfl

/-! ### One turn of the loop -/

/-- One turn of the `while` loop, with the recursive call of line 52 read
as a call of `find_with_extension`. -/
theorem readdir_loop_entry (L : LuaTable) (path : String) (extension : Option String)
    (recursive : Bool) (start : Nat) (d_name : String) (st : Option Nat) (opens : Bool)
    (sub rest : Dir) :
    readdir_loop L path extension recursive start (Dir.entry d_name st opens sub rest) =
      if (st.getD 0 &&& S_IFDIR) > 0 && d_name != "." && d_name != ".." && recursive then
        readdir_loop
          (find_with_extension L (snprintf_file path d_name) extension recursive start opens sub).1
          path extension recursive
          (size_t_of_int
            (find_with_extension L (snprintf_file path d_name) extension recursive start opens sub).2)
          rest
      else if (st.getD 0 &&& S_IFREG) != 0 then
        if extension_matches d_name extension then
          readdir_loop (lua_settable L (lua_Integer_of_size_t start) (snprintf_file path d_name))
            path extension recursive ((start + 1) % 2 ^ 64) rest
        else readdir_loop L path extension recursive start rest
      else readdir_loop L path extension recursive start rest := by
  cases opens <;> rfl

theorem size_t_of_int_of_size_t (n : Nat) (h : n < 2 ^ 31) :
    size_t_of_int (int_of_size_t n) = n := by
  unfold size_t_of_int int_of_size_t
  have h1 : n % 2 ^ 32 = n := Nat.mod_eq_of_lt (by omega)
  rw [h1, if_pos h]
  have h2 : ((n : Int)) % 2 ^ 64 = (n : Int) := Int.emod_eq_of_lt (by omega) (by omega)
  rw [h2]
  simp

theorem lua_Integer_of_size_t_small (n : Nat) (h : n < 2 ^ 31) :
    lua_Integer_of_size_t n = (n : Int) := by
  unfold lua_Integer_of_size_t
  have h1 : n % 2 ^ 64 = n := Nat.mod_eq_of_lt (by omega)
  rw [h1, if_pos (by omega)]

theorem snprintf_file_fits (path d_name : String)
    (h : path.length + 1 + d_name.length ≤ PATH_MAX) :
    snprintf_file path d_name = joinPath path d_name := by
  unfold snprintf_file joinPath
  apply String.ext
  simp only [String.data_append]
  rw [List.take_of_length_le]
  · simp
  · have h2 : path.data.length + 1 + d_name.data.length ≤ PATH_MAX := h
    rw [List.length_append, List.length_cons]
    omega

theorem lua_settable_fresh (L : LuaTable) (k : Int) (v : String)
    (h : ∀ e ∈ L, e.1 < k) : lua_settable L k v = (k, v) :: L := by
  unfold lua_settable
  congr 1
  rw [List.filter_eq_self]
  intro e he
  have := h e he
  simp
  omega

/-! ### Sequences in a table -/

theorem seqTable_append (xs ys : List String) :
    ∀ start : Nat, seqTable start (xs ++ ys) = seqTable (start + xs.length) ys ++ seqTable start xs := by
  induction xs with
  | nil => intro start; simp [seqTable]
  | cons x xs ih =>
    intro start
    have e : start + 1 + xs.length = start + (xs.length + 1) := by omega
    simp [seqTable, ih, e]

theorem seqTable_key_bounds (xs : List String) :
    ∀ (start : Nat) (e : Int × String), e ∈ seqTable start xs →
      (start : Int) ≤ e.1 ∧ e.1 < ((start + xs.length : Nat) : Int) := by
  induction xs with
  | nil => intro start e h; simp [seqTable] at h
  | cons x xs ih =>
    intro start e h
    simp only [seqTable, List.mem_append, List.mem_singleton] at h
    rcases h with h | h
    · have := ih (start + 1) e h
      simp only [List.length_cons]
      push_cast at this ⊢
      omega
    · subst h
      simp only [List.length_cons]
      push_cast
      omega

theorem seqTable_values (xs : List String) :
    ∀ start : Nat, LuaTable.values (seqTable start xs) = xs.reverse := by
  induction xs with
  | nil => intro start; rfl
  | cons x xs ih =>
    intro start
    have := ih (start + 1)
    simp only [LuaTable.values] at this ⊢
    simp [seqTable, this]

/-! ### Kinds of files and the two bit tests -/

theorem mode_kind_cases (m : Nat)
    (h : [S_IFIFO, S_IFCHR, S_IFDIR, S_IFBLK, S_IFREG, S_IFSOCK].contains (m &&& S_IFMT) = true) :
    (m &&& S_IFMT = S_IFDIR ∧ m &&& S_IFDIR = S_IFDIR ∧ m &&& S_IFREG = 0) ∨
    (m &&& S_IFMT = S_IFREG ∧ m &&& S_IFDIR = 0 ∧ m &&& S_IFREG = S_IFREG) ∨
    (m &&& S_IFMT = S_IFSOCK ∨ m &&& S_IFMT = S_IFBLK) ∨
    (m &&& S_IFMT ≠ S_IFDIR ∧ m &&& S_IFMT ≠ S_IFREG ∧ m &&& S_IFDIR = 0 ∧ m &&& S_IFREG = 0) := by
  have hd : m &&& S_IFDIR = (m &&& S_IFMT) &&& S_IFDIR := by
    rw [Nat.land_assoc]; rfl
  have hr : m &&& S_IFREG = (m &&& S_IFMT) &&& S_IFREG := by
    rw [Nat.land_assoc]; rfl
  simp only [List.contains_eq_any_beq, List.any_cons, List.any_nil, Bool.or_false, Bool.or_eq_true,
    beq_iff_eq] at h
  rcases h with h | h | h | h | h | h
  · right; right; right
    rw [hd, hr, h]; decide
  · right; right; right
    rw [hd, hr, h]; decide
  · left
    rw [hd, hr, h]; decide
  · right; right; left; right; exact h
  · right; left
    rw [hd, hr, h]; decide
  · right; right; left; left; exact h

/-! ### The walk over a tree in which every descent succeeds -/

theorem matchingUnder_entry (path : String) (ext : Option String) (d_name : String)
    (st : Option Nat) (opens : Bool) (sub rest : Dir) :
    matchingUnder path ext (Dir.entry d_name st opens sub rest) =
      (if isDirectory st && d_name != "." && d_name != ".." then
          matchingUnder (joinPath path d_name) ext sub
        else if isRegular st then
          (if extension_matches d_name ext then [joinPath path d_name] else [])
        else []) ++ matchingUnder path ext rest := by
  unfold matchingUnder
  simp only [regularFilesUnder]
  split_ifs <;> simp [*]

theorem readdir_loop_walkable (ext : Option String) :
    ∀ (dir : Dir) (L : LuaTable) (path : String) (start : Nat),
      presentable path dir = true → walkable dir = true →
      (∀ e ∈ L, e.1 < (start : Int)) →
      start + (matchingUnder path ext dir).length < 2 ^ 31 →
      readdir_loop L path ext true start dir =
        (seqTable start (matchingUnder path ext dir) ++ L,
          start + (matchingUnder path ext dir).length) := by
  intro dir
  induction dir with
  | nil =>
    intro L path start _ _ _ _
    simp [readdir_loop, matchingUnder, regularFilesUnder, seqTable]
  | entry d_name st opens sub rest ihs ihr =>
    intro L path start hp hw hL hb
    rw [readdir_loop_entry]
    rw [matchingUnder_entry] at hb ⊢
    simp only [presentable, walkable, Bool.and_eq_true] at hp hw
    obtain ⟨⟨⟨hp1, hp2⟩, hp4⟩, hp5⟩ := hp
    obtain ⟨⟨hw1, hw2⟩, hw3⟩ := hw
    cases st with
    | none =>
      have h0d : (0 : Nat) &&& S_IFDIR = 0 := by decide
      have h0r : (0 : Nat) &&& S_IFREG = 0 := by decide
      simp only [isDirectory, isRegular, Option.getD, h0d, h0r] at hb ⊢
      simp at hb ⊢
      exact ihr L path start hp5 hw3 hL hb
    | some m =>
      simp only [Bool.and_eq_true, decide_eq_true_eq] at hp1
      obtain ⟨hkind, hfit⟩ := hp1
      have hfile := snprintf_file_fits path d_name hfit
      have hposd : 0 < S_IFDIR := by decide
      have hposr : S_IFREG ≠ 0 := by decide
      simp only [Option.getD, hfile]
      rcases mode_kind_cases m hkind with ⟨k, hd, hr⟩ | ⟨k, hd, hr⟩ | hk | ⟨k1, k2, hd, hr⟩
      · have hisd : isDirectory (some m) = true := by simp [isDirectory, k]
        have hisr : isRegular (some m) = false := by
          simp only [isRegular, k]; decide
        simp only [hisd, hd, hposd, hisr, hr] at hb hw1 ⊢
        simp at hb hw1 ⊢
        by_cases hname : ¬d_name = "." ∧ ¬d_name = ".."
        · simp only [if_pos hname] at hb ⊢
          have hw1b : opens = true ∧ walkable sub = true := by
            rcases hw1 with h | h
            · rcases h with h | h
              · exact absurd h hname.1
              · exact absurd h hname.2
            · exact h
          obtain ⟨ho, hws⟩ := hw1b
          subst ho
          have hsub := ihs L (joinPath path d_name) start hp4 hws hL (by omega)
          simp only [find_with_extension, hsub]
          rw [size_t_of_int_of_size_t _ (by omega)]
          have hkeys : ∀ e ∈ seqTable start (matchingUnder (joinPath path d_name) ext sub) ++ L,
              e.1 < ((start + (matchingUnder (joinPath path d_name) ext sub).length : Nat) : Int) := by
            intro e he
            rcases List.mem_append.mp he with h | h
            · exact (seqTable_key_bounds _ _ _ h).2
            · have := hL e h
              push_cast
              omega
          rw [ihr _ path _ hp5 hw3 hkeys (by omega), seqTable_append]
          simp [List.append_assoc, Nat.add_assoc]
        · simp only [if_neg hname] at hb ⊢
          simp at hb ⊢
          exact ihr L path start hp5 hw3 hL hb
      · have hisd : isDirectory (some m) = false := by
          simp only [isDirectory, k]; decide
        have hisr : isRegular (some m) = true := by simp [isRegular, k]
        simp only [hisd, hd, hposr, hisr, hr] at hb ⊢
        simp at hb ⊢
        rw [if_neg hposr]
        by_cases hm : extension_matches d_name ext = true
        · simp only [if_pos hm, List.length_singleton] at hb ⊢
          have h64 : (start + 1) % 18446744073709551616 = start + 1 := Nat.mod_eq_of_lt (by omega)
          rw [h64, lua_Integer_of_size_t_small _ (by omega), lua_settable_fresh _ _ _ hL]
          have hkeys : ∀ e ∈ ((start : Int), joinPath path d_name) :: L,
              e.1 < ((start + 1 : Nat) : Int) := by
            intro e he
            rcases List.mem_cons.mp he with h | h
            · subst h; push_cast; omega
            · have := hL e h
              push_cast
              omega
          rw [ihr _ path _ hp5 hw3 hkeys (by omega)]
          simp [seqTable, Nat.add_assoc]
        · simp only [if_neg hm, List.length_nil, Nat.zero_add, List.nil_append] at hb ⊢
          exact ihr L path start hp5 hw3 hL hb
      · exfalso
        simp at hw2
        rcases hk with h | h
        · exact hw2.1 h
        · exact hw2.2 h
      · have hisd : isDirectory (some m) = false := by simp [isDirectory, k1]
        have hisr : isRegular (some m) = false := by simp [isRegular, k2]
        simp only [hisd, hd, hisr, hr] at hb ⊢
        simp at hb ⊢
        exact ihr L path start hp5 hw3 hL hb

theorem regularFilesUnder_names (dir : Dir) :
    ∀ (path p n : String), presentable path dir = true → (p, n) ∈ regularFilesUnder path dir →
      n ≠ "." ∧ n ≠ ".." := by
  induction dir with
  | nil => intro path p n _ h; simp [regularFilesUnder] at h
  | entry d_name st opens sub rest ihs ihr =>
    intro path p n hp h
    simp only [presentable, Bool.and_eq_true] at hp
    obtain ⟨⟨⟨_, hp2⟩, hp4⟩, hp5⟩ := hp
    simp only [regularFilesUnder, List.mem_append] at h
    rcases h with h | h
    · split_ifs at h with h1 h2
      · exact ihs _ p n hp4 h
      · simp only [List.mem_singleton, Prod.mk.injEq] at h
        obtain ⟨_, hn⟩ := h
        subst hn
        cases st with
        | none => simp [isRegular] at h2
        | some m =>
          have hnd : isDirectory (some m) = false := by
            simp only [isRegular, beq_iff_eq] at h2
            simp only [isDirectory, h2]
            decide
          simp [hnd] at hp2
          exact hp2
      · simp at h
    · exact ihr path p n hp5 h

theorem seqTable_keys (xs : List String) :
    ∀ start : Nat, LuaTable.keys (seqTable start xs) =
      ((List.range' start xs.length).map (fun i : Nat => (i : Int))).reverse := by
  induction xs with
  | nil => intro start; rfl
  | cons x xs ih =>
    intro start
    have := ih (start + 1)
    simp only [LuaTable.keys] at this ⊢
    simp [seqTable, this, List.range'_succ]

theorem seqTable_gettable (xs : List String) :
    ∀ (start i : Nat), i < xs.length →
      lua_gettable (seqTable start xs) ((start + i : Nat) : Int) = xs[i]? := by
  induction xs with
  | nil => intro start i h; simp at h
  | cons x xs ih =>
    intro start i h
    unfold lua_gettable at ih ⊢
    simp only [seqTable, List.lookup_append]
    cases i with
    | zero =>
      have hnone : List.lookup ((start + 0 : Nat) : Int) (seqTable (start + 1) xs) = none := by
        rw [List.lookup_eq_none_iff]
        intro e he
        have := (seqTable_key_bounds xs (start + 1) e he).1
        simp only [bne_iff_ne, ne_eq]
        push_cast at this ⊢
        omega
      rw [hnone]
      simp [List.lookup_cons]
    | succ j =>
      have hj : j < xs.length := by simpa using h
      have e : start + (j + 1) = start + 1 + j := by omega
      rw [e, ih (start + 1) j hj]
      rw [List.getElem?_eq_getElem hj]
      simp [List.getElem?_eq_getElem hj]

/-! ### Entries that are skipped, and the walk without recursion -/

theorem readdir_loop_skip (L : LuaTable) (path : String) (extension : Option String)
    (recursive : Bool) (start : Nat) (d_name : String) (st : Option Nat) (opens : Bool)
    (sub rest : Dir) (hd : st.getD 0 &&& S_IFDIR = 0) (hr : st.getD 0 &&& S_IFREG = 0) :
    readdir_loop L path extension recursive start (Dir.entry d_name st opens sub rest) =
      readdir_loop L path extension recursive start rest := by
  rw [readdir_loop_entry]
  simp [hd, hr]

theorem matchingIn_entry (path : String) (ext : Option String) (d_name : String)
    (st : Option Nat) (opens : Bool) (sub rest : Dir) :
    matchingIn path ext (Dir.entry d_name st opens sub rest) =
      (if isRegular st then
          (if extension_matches d_name ext then [joinPath path d_name] else [])
        else []) ++ matchingIn path ext rest := by
  unfold matchingIn
  simp only [regularFilesIn]
  split_ifs <;> simp [*]

theorem readdir_loop_flat (ext : Option String) :
    ∀ (dir : Dir) (L : LuaTable) (path : String) (start : Nat),
      presentable path dir = true → noSocketEntry dir = true →
      (∀ e ∈ L, e.1 < (start : Int)) →
      start + (matchingIn path ext dir).length < 2 ^ 31 →
      readdir_loop L path ext false start dir =
        (seqTable start (matchingIn path ext dir) ++ L,
          start + (matchingIn path ext dir).length) := by
  intro dir
  induction dir with
  | nil =>
    intro L path start _ _ _ _
    simp [readdir_loop, matchingIn, regularFilesIn, seqTable]
  | entry d_name st opens sub rest _ ihr =>
    intro L path start hp hw hL hb
    rw [matchingIn_entry] at hb ⊢
    simp only [presentable, noSocketEntry, Bool.and_eq_true] at hp hw
    obtain ⟨⟨⟨hp1, _⟩, _⟩, hp5⟩ := hp
    obtain ⟨hw2, hw3⟩ := hw
    cases st with
    | none =>
      rw [readdir_loop_skip _ _ _ _ _ _ _ _ _ _ (by decide) (by decide)]
      simp only [isRegular] at hb ⊢
      simp at hb ⊢
      exact ihr L path start hp5 hw3 hL hb
    | some m =>
      simp only [Bool.and_eq_true, decide_eq_true_eq] at hp1
      obtain ⟨hkind, hfit⟩ := hp1
      have hfile := snprintf_file_fits path d_name hfit
      have hposr : S_IFREG ≠ 0 := by decide
      rcases mode_kind_cases m hkind with ⟨k, hd, hr⟩ | ⟨k, hd, hr⟩ | hk | ⟨k1, k2, hd, hr⟩
      · have hisr : isRegular (some m) = false := by
          simp only [isRegular, k]; decide
        rw [readdir_loop_entry]
        simp only [Option.getD, hisr, hr] at hb ⊢
        simp at hb ⊢
        exact ihr L path start hp5 hw3 hL hb
      · have hisr : isRegular (some m) = true := by simp [isRegular, k]
        rw [readdir_loop_entry]
        simp only [Option.getD, hfile, hisr, hr] at hb ⊢
        simp at hb ⊢
        rw [if_neg hposr]
        by_cases hm : extension_matches d_name ext = true
        · simp only [if_pos hm, List.length_singleton] at hb ⊢
          have h64 : (start + 1) % 18446744073709551616 = start + 1 := Nat.mod_eq_of_lt (by omega)
          rw [h64, lua_Integer_of_size_t_small _ (by omega), lua_settable_fresh _ _ _ hL]
          have hkeys : ∀ e ∈ ((start : Int), joinPath path d_name) :: L,
              e.1 < ((start + 1 : Nat) : Int) := by
            intro e he
            rcases List.mem_cons.mp he with h | h
            · subst h; push_cast; omega
            · have := hL e h
              push_cast
              omega
          rw [ihr _ path _ hp5 hw3 hkeys (by omega)]
          simp [seqTable, Nat.add_assoc]
        · simp only [if_neg hm, List.length_nil, Nat.zero_add, List.nil_append] at hb ⊢
          exact ihr L path start hp5 hw3 hL hb
      · simp at hw2
        rcases hk with h | h
        · exact absurd h hw2
        · have hisr : isRegular (some m) = false := by
            simp only [isRegular, h]; decide
          have hrb : m &&& S_IFREG = 0 := by
            rw [land_type_bits m S_IFBLK S_IFREG h (by decide)]; decide
          rw [readdir_loop_entry]
          simp only [Option.getD, hisr, hrb] at hb ⊢
          simp at hb ⊢
          exact ihr L path start hp5 hw3 hL hb
      · have hisr : isRegular (some m) = false := by simp [isRegular, k2]
        rw [readdir_loop_skip L path ext false start d_name (some m) opens sub rest hd hr]
        simp only [hisr] at hb ⊢
        simp at hb ⊢
        exact ihr L path start hp5 hw3 hL hb

/-! ## The properties of the specification -/

/-- C3. A name passes the extension test of `find_with_extension` for a
requested extension `E` exactly when it is a stem, a dot and `E` with no
dot in `E` (the part after its last dot is `E`, char for char);
`archive.tar.gz` passes for `gz` and not for `tar`, case matters, a name
without dot passes for no `E`, and every name passes when the extension is
absent.  For an entry that is a regular file the loop appends its path
exactly when the name passes the test. -/
theorem extension_test_is_final_suffix :
    (∀ n E : String, extension_matches n (some E) = true ↔ HasExtension n E) ∧
    extension_matches "archive.tar.gz" (some "gz") = true ∧
    extension_matches "archive.tar.gz" (some "tar") = false ∧
    extension_matches "archive.tar.GZ" (some "gz") = false ∧
    (∀ n E : String, '.' ∉ n.data → extension_matches n (some E) = false) ∧
    (∀ n : String, extension_matches n none = true) ∧
    (∀ (L : LuaTable) (path : String) (extension : Option String) (recursive : Bool)
        (start : Nat) (d_name : String) (st : Option Nat) (opens : Bool) (sub rest : Dir),
      isRegular st = true →
      readdir_loop L path extension recursive start (Dir.entry d_name st opens sub rest) =
        if extension_matches d_name extension then
          readdir_loop (lua_settable L (lua_Integer_of_size_t start) (snprintf_file path d_name))
            path extension recursive ((start + 1) % 2 ^ 64) rest
        else readdir_loop L path extension recursive start rest) := by
  refine ⟨extension_matches_iff, by decide, by decide, by decide,
    fun n E h => extension_matches_no_dot n E h, fun n => rfl, ?_⟩
  intro L path extension recursive start d_name st opens sub rest hreg
  rw [readdir_loop_entry]
  cases st with
  | none => simp [isRegular] at hreg
  | some m =>
    simp only [isRegular, beq_iff_eq] at hreg
    have hd : m &&& S_IFDIR = 0 := by
      rw [land_type_bits m S_IFREG S_IFDIR hreg (by decide)]; decide
    have hr : m &&& S_IFREG = S_IFREG := by
      rw [land_type_bits m S_IFREG S_IFREG hreg (by decide)]; decide
    have hposr : S_IFREG ≠ 0 := by decide
    simp [Option.getD, hd, hr, hposr]

/-- C3, at a concrete entry: the regular file `archive.tar.gz` in `src` is
appended under the key 1 when `gz` is requested. -/
theorem extension_test_is_final_suffix_witness :
    isRegular (some 0o100644) = true ∧
    readdir_loop [] "src" (some "gz") false 1 (regularFile "archive.tar.gz" Dir.nil) =
      ([(1, "src/archive.tar.gz")], 2) :=
  ⟨by decide, by
    have h := extension_test_is_final_suffix.2.2.2.2.2.2 [] "src" (some "gz") false 1
      "archive.tar.gz" (some 0o100644) false Dir.nil Dir.nil (by decide)
    unfold regularFile
    rw [h]
    decide⟩

/-- C1, as amended. For a tree as an operating system presents it, in
which every directory (other than `.` and `..`) opens and which holds no
socket and no block device, with fewer than `2 ^ 31 - 1` regular files, a
recursive `find` with the extension `E` returns one table, the sequence of
the matching regular files in pre-order under the keys 1, 2, ...; a path
is among its values exactly when it is the path of a regular file under
the root, at any depth, not named `.` or `..`, whose name is a stem, a dot
and `E`; and no path occurs more often than among the files under the
root. -/
theorem find_recursive_returns_regular_files (fs : String → Option Dir)
    (field : String → LuaValue) (T E : String) (dir : Dir)
    (hpath : get_string_field field "path" = some T)
    (hext : get_string_field field "extension" = some E)
    (hrec : get_bool_field field "recursive" = true)
    (hroot : fs T = some dir)
    (hp : presentable T dir = true) (hw : walkable dir = true)
    (hsize : (regularFilesUnder T dir).length + 1 < 2 ^ 31) :
    ∃ t : LuaTable, l_find fs (LuaValue.table field) = some [t] ∧
      t = seqTable 1 (matchingUnder T (some E) dir) ∧
      (∀ p : String, p ∈ LuaTable.values t ↔
        ∃ n : String, (p, n) ∈ regularFilesUnder T dir ∧ HasExtension n E ∧ n ≠ "." ∧ n ≠ "..") ∧
      (∀ p : String,
        (LuaTable.values t).count p ≤ ((regularFilesUnder T dir).map Prod.fst).count p) := by
  have hlen : (matchingUnder T (some E) dir).length ≤ (regularFilesUnder T dir).length := by
    unfold matchingUnder
    rw [List.length_map]
    exact List.length_filter_le _ _
  have hwalk := readdir_loop_walkable (some E) dir [] T 1 hp hw (by simp) (by omega)
  refine ⟨seqTable 1 (matchingUnder T (some E) dir), ?_, rfl, ?_, ?_⟩
  · simp [l_find, hpath, hext, hrec, hroot, find_with_extension, hwalk]
  · intro p
    rw [seqTable_values, List.mem_reverse]
    unfold matchingUnder
    simp only [List.mem_map, List.mem_filter, Prod.exists, exists_and_right, exists_eq_right]
    constructor
    · rintro ⟨n, hmem, hm⟩
      exact ⟨n, hmem, (extension_matches_iff n E).mp hm, regularFilesUnder_names dir T p n hp hmem⟩
    · rintro ⟨n, hmem, hm, _⟩
      exact ⟨n, hmem, (extension_matches_iff n E).mpr hm⟩
  · intro p
    rw [seqTable_values, List.count_reverse]
    unfold matchingUnder
    exact List.Sublist.count_le ((List.filter_sublist _).map _) p

/-- C1 as amended, on the tree `plainTree` rooted at `src` with the
extension `c`: the table holds `src/a.c`, `src/sub/d.c` and `src/b.c` under
the keys 1, 2, 3; the file below the entry `.` is not listed again. -/
theorem find_recursive_returns_regular_files_witness :
    presentable "src" plainTree = true ∧ walkable plainTree = true ∧
    ∃ t : LuaTable,
      l_find (fsWith "src" plainTree) (searchSpec "src" (some "c") (some true)) = some [t] ∧
      t = seqTable 1 (matchingUnder "src" (some "c") plainTree) ∧
      (∀ p : String, p ∈ LuaTable.values t ↔
        ∃ n : String, (p, n) ∈ regularFilesUnder "src" plainTree ∧ HasExtension n "c" ∧
          n ≠ "." ∧ n ≠ "..") ∧
      (∀ p : String, (LuaTable.values t).count p ≤
        ((regularFilesUnder "src" plainTree).map Prod.fst).count p) :=
  ⟨by decide, by decide,
    find_recursive_returns_regular_files (fsWith "src" plainTree) _ "src" "c" plainTree
      (by decide) (by decide) (by decide) (by decide) (by decide) (by decide) (by decide)⟩

/-- C1, as stated, fails on the tree `hiddenTree`: `src/locked/hidden.c` is
a regular file under `src` whose name ends in `.c`, the directory `locked`
does not open, and the recursive `find` returns the empty table. -/
theorem find_recursive_misses_hidden_file :
    l_find (fsWith "src" hiddenTree) (searchSpec "src" (some "c") (some true)) = some [[]] ∧
    ("src/locked/hidden.c", "hidden.c") ∈ regularFilesUnder "src" hiddenTree ∧
    extension_matches "hidden.c" (some "c") = true := by
  decide

/-- C2, at the tree `lockedTree` rooted at `src`: the root opens and holds
the regular files `a.c`, `b.c` and `c.c`; the directory `locked`, listed
after `a.c`, does not open.  The failed descent returns 0, the index starts
again from 0, `src/b.c` goes under the key 0 and `src/c.c` replaces
`src/a.c` under the key 1: the table returned does not hold `src/a.c`. -/
theorem failed_descent_resets_index :
    l_find (fsWith "src" lockedTree) (searchSpec "src" (some "c") (some true)) =
      some [[(1, "src/c.c"), (0, "src/b.c")]] ∧
    find_with_extension [(1, "src/a.c")] "src/locked" (some "c") true 2 false
      (regularFile "hidden.c" Dir.nil) = ([(1, "src/a.c")], 0) ∧
    ("src/a.c", "a.c") ∈ regularFilesIn "src" lockedTree ∧
    extension_matches "a.c" (some "c") = true ∧
    "src/a.c" ∉ LuaTable.values [(1, "src/c.c"), (0, "src/b.c")] := by
  decide

/-- C4, at the tree `socketTree` rooted at `src`, in which every directory
opens: four regular files match `c`, yet the table returned holds three
entries, under the keys 1, 0 and 2.  The socket `ctl.sock` passes the test
`(st_mode & S_IFDIR) > 0`, the descent into it fails and returns 0, and the
matches after it are stored from the key 0 on, `src/c.c` over `src/a.c`. -/
theorem socket_breaks_sequence_keys :
    directoriesOpen socketTree = true ∧
    matchingUnder "src" (some "c") socketTree =
      ["src/a.c", "src/sub/d.c", "src/b.c", "src/c.c"] ∧
    l_find (fsWith "src" socketTree) (searchSpec "src" (some "c") (some true)) =
      some [[(1, "src/c.c"), (0, "src/b.c"), (2, "src/sub/d.c")]] ∧
    LuaTable.keys [(1, "src/c.c"), (0, "src/b.c"), (2, "src/sub/d.c")] = [1, 0, 2] := by
  decide

/-- C5, at the tree `flatTree` rooted at `run`, without extension and
without the field `recursive`: the only regular file directly in `run` is
`main.c`, and the table returned also holds the socket `run/agent.sock`,
which passes the test `st_mode & S_IFREG`.  The directory `sub` is neither
listed nor descended into. -/
theorem socket_returned_as_regular_file :
    regularFilesIn "run" flatTree = [("run/main.c", "main.c")] ∧
    isRegular (some 0o140755) = false ∧
    l_find (fsWith "run" flatTree) (searchSpec "run" none none) =
      some [[(2, "run/agent.sock"), (1, "run/main.c")]] := by
  decide

/-- C6. When the path of the table handed to `l_find` is a string that names
no openable directory, `l_find` returns exactly one value, the table
without entries, whatever the fields `extension` and `recursive` hold. -/
theorem unopenable_root_gives_empty_table (fs : String → Option Dir)
    (field : String → LuaValue) (path : String)
    (hpath : get_string_field field "path" = some path)
    (hroot : fs path = none) :
    l_find fs (LuaValue.table field) = some [[]] := by
  simp [l_find, hpath, hroot, find_with_extension]

/-- C6 at `/nonexistent`, in a file system whose only directory is `src`. -/
theorem unopenable_root_gives_empty_table_witness :
    fsWith "src" plainTree "/nonexistent" = none ∧
    l_find (fsWith "src" plainTree) (searchSpec "/nonexistent" (some "c") (some true)) =
      some [[]] :=
  ⟨by decide,
    unopenable_root_gives_empty_table (fsWith "src" plainTree) _ "/nonexistent"
      (by decide) (by decide)⟩

/-- C7, as amended. When `fork` fails (returns a negative value),
`l_fullclean` calls `perror("Fork failed")` and nothing else: neither
`rmdir` nor `remove` is attempted, the files stay as they are, and the
function returns no value to the host. -/
theorem fork_failure_only_reports (os : Os) (files : Files) (field : String → LuaValue)
    (hfork : os.fork < 0) :
    l_fullclean os files (LuaValue.table field) =
      { calls := [Call.fork, Call.perror "Fork failed"], leave := Leave.returns 0,
        files := files } := by
  simp [l_fullclean, hfork]

/-- C7 as amended, at `fork() = -1` with `{output = "build.ninja",
buildFolder = "out"}`. -/
theorem fork_failure_only_reports_witness :
    (osWith (-1) true).fork < 0 ∧
    l_fullclean (osWith (-1) true) buildFiles (cleanSpec "build.ninja" (some "out")) =
      { calls := [Call.fork, Call.perror "Fork failed"], leave := Leave.returns 0,
        files := buildFiles } :=
  ⟨by decide, fork_failure_only_reports (osWith (-1) true) buildFiles _ (by decide)⟩

/-- C7, as stated, fails at `fork() = -1` with `{output = "build.ninja",
buildFolder = "out"}`: no `rmdir` and no `remove` is among the calls, and
`build.ninja` is still there afterwards. -/
theorem fork_failure_skips_cleanup :
    Call.rmdir "out" ∉
      (l_fullclean (osWith (-1) true) buildFiles (cleanSpec "build.ninja" (some "out"))).calls ∧
    Call.remove (some "build.ninja") ∉
      (l_fullclean (osWith (-1) true) buildFiles (cleanSpec "build.ninja" (some "out"))).calls ∧
    Files.kind
      (l_fullclean (osWith (-1) true) buildFiles (cleanSpec "build.ninja" (some "out"))).files
      "build.ninja" = some Node.file := by
  decide

/-- C8, in the child (`fork() = 0`) when `execlp` fails: the calls are
`fork` and `execlp` only, no `perror` follows, and the child leaves
`l_fullclean` by `return 0`, back into the scripting host. -/
theorem failed_execlp_returns_to_host :
    l_fullclean (osWith 0 false) buildFiles (cleanSpec "build.ninja" (some "out")) =
      { calls := [Call.fork, Call.execlp "ninja" ["ninja", "-f", "build.ninja", "-t", "clean"]],
        leave := Leave.returns 0, files := buildFiles } := by
  decide

/-- C10, at a socket and at a block device, whose type bits are neither
`S_IFDIR` nor `S_IFREG`.  Without recursion the socket `agent.sock` is
appended to the table.  With recursion `find_with_extension` is called on
the block device `sda`, fails to open it and returns 0, so that `dev/b.c`
is stored under the key 0. -/
theorem socket_and_block_device_not_skipped :
    (0o140755 &&& S_IFMT = S_IFSOCK ∧ S_IFSOCK ≠ S_IFDIR ∧ S_IFSOCK ≠ S_IFREG) ∧
    (0o060660 &&& S_IFMT = S_IFBLK ∧ S_IFBLK ≠ S_IFDIR ∧ S_IFBLK ≠ S_IFREG) ∧
    readdir_loop [] "run" none false 1 (socketFile "agent.sock" Dir.nil) =
      ([(1, "run/agent.sock")], 2) ∧
    readdir_loop [] "dev" none true 1 deviceTree = ([(0, "dev/b.c"), (1, "dev/a.c")], 1) ∧
    readdir_loop [] "dev" none true 1
        (dotEntries (regularFile "a.c" (regularFile "b.c" Dir.nil))) =
      ([(2, "dev/b.c"), (1, "dev/a.c")], 3) := by
  decide

/-- A table whose field `path` is neither a string nor a number: `opendir`
is handed `NULL` and the call gives no result. -/
theorem l_find_without_path (fs : String → Option Dir) (field : String → LuaValue)
    (hpath : get_string_field field "path" = none) :
    l_find fs (LuaValue.table field) = none := by
  simp [l_find, hpath]

/-- An entry whose `stat` fails, a fifo and a character device are skipped,
with and without recursion and whatever the extension: the loop goes on
with the next entry from the same table and the same index. -/
theorem fifo_chardev_statfailure_skipped (L : LuaTable) (path : String)
    (extension : Option String) (recursive : Bool) (start : Nat) (d_name : String)
    (st : Option Nat) (opens : Bool) (sub rest : Dir)
    (hkind : st = none ∨ ∃ m, st = some m ∧ (m &&& S_IFMT = S_IFIFO ∨ m &&& S_IFMT = S_IFCHR)) :
    readdir_loop L path extension recursive start (Dir.entry d_name st opens sub rest) =
      readdir_loop L path extension recursive start rest := by
  apply readdir_loop_skip
  · rcases hkind with h | ⟨m, h, hk | hk⟩
    · subst h; decide
    · subst h
      simp only [Option.getD]
      rw [land_type_bits m _ S_IFDIR hk (by decide)]; decide
    · subst h
      simp only [Option.getD]
      rw [land_type_bits m _ S_IFDIR hk (by decide)]; decide
  · rcases hkind with h | ⟨m, h, hk | hk⟩
    · subst h; decide
    · subst h
      simp only [Option.getD]
      rw [land_type_bits m _ S_IFREG hk (by decide)]; decide
    · subst h
      simp only [Option.getD]
      rw [land_type_bits m _ S_IFREG hk (by decide)]; decide

/-- On a tree as an operating system presents it, in which every directory
opens and which holds no socket and no block device, the table a recursive
`find` returns holds the matches in pre-order under the keys 1 to `n`, and
no other key. -/
theorem find_recursive_is_sequence (fs : String → Option Dir) (field : String → LuaValue)
    (T : String) (dir : Dir)
    (hpath : get_string_field field "path" = some T)
    (hrec : get_bool_field field "recursive" = true)
    (hroot : fs T = some dir)
    (hp : presentable T dir = true) (hw : walkable dir = true)
    (hsize : (regularFilesUnder T dir).length + 1 < 2 ^ 31) :
    ∃ t : LuaTable, l_find fs (LuaValue.table field) = some [t] ∧
      LuaTable.keys t =
        ((List.range' 1 (matchingUnder T (get_string_field field "extension") dir).length).map
          (fun i : Nat => (i : Int))).reverse ∧
      ∀ i : Nat, i < (matchingUnder T (get_string_field field "extension") dir).length →
        lua_gettable t ((1 + i : Nat) : Int) =
          (matchingUnder T (get_string_field field "extension") dir)[i]? := by
  have hlen : (matchingUnder T (get_string_field field "extension") dir).length ≤
      (regularFilesUnder T dir).length := by
    unfold matchingUnder
    rw [List.length_map]
    exact List.length_filter_le _ _
  have hwalk := readdir_loop_walkable (get_string_field field "extension") dir [] T 1 hp hw
    (by simp) (by omega)
  refine ⟨seqTable 1 (matchingUnder T (get_string_field field "extension") dir), ?_,
    seqTable_keys _ 1, fun i hi => seqTable_gettable _ 1 i hi⟩
  simp [l_find, hpath, hrec, hroot, find_with_extension, hwalk]

/-- On a directory as an operating system presents it, none of whose direct
entries is a socket, a `find` without recursion and without extension
returns the paths of the regular files that are direct entries, in the
order of the entries, under the keys 1, 2, ... -/
theorem find_flat_returns_direct_regular_files (fs : String → Option Dir)
    (field : String → LuaValue) (T : String) (dir : Dir)
    (hpath : get_string_field field "path" = some T)
    (hext : get_string_field field "extension" = none)
    (hrec : get_bool_field field "recursive" = false)
    (hroot : fs T = some dir)
    (hp : presentable T dir = true) (hs : noSocketEntry dir = true)
    (hsize : (regularFilesIn T dir).length + 1 < 2 ^ 31) :
    l_find fs (LuaValue.table field) =
      some [seqTable 1 ((regularFilesIn T dir).map Prod.fst)] := by
  have hall : matchingIn T none dir = (regularFilesIn T dir).map Prod.fst := by
    unfold matchingIn
    simp [extension_matches]
  have hflat := readdir_loop_flat none dir [] T 1 hp hs (by simp)
    (by rw [hall, List.length_map]; omega)
  rw [hall] at hflat
  simp [l_find, hpath, hext, hrec, hroot, find_with_extension, hflat]

/-- The sequence property on the tree `plainTree` rooted at `src`, for the
extension `c`: the keys are 3, 2, 1 and the key 2 holds `src/sub/d.c`. -/
theorem find_recursive_is_sequence_witness :
    ∃ t : LuaTable,
      l_find (fsWith "src" plainTree) (searchSpec "src" (some "c") (some true)) = some [t] ∧
      LuaTable.keys t = [3, 2, 1] ∧ lua_gettable t 2 = some "src/sub/d.c" := by
  obtain ⟨t, h1, h2, h3⟩ := find_recursive_is_sequence (fsWith "src" plainTree)
    (fun key =>
      if key = "path" then LuaValue.string "src"
      else if key = "extension" then LuaValue.string "c"
      else if key = "recursive" then LuaValue.boolean true
      else LuaValue.nil)
    "src" plainTree (by decide) (by decide) (by decide) (by decide) (by decide) (by decide)
  have h4 := h3 1 (by decide)
  exact ⟨t, h1, by rw [h2]; decide, by rw [show (2 : Int) = ((1 + 1 : Nat) : Int) from rfl, h4]; decide⟩

/-- The walk without recursion on the tree `plainTree` rooted at `src`: the
table holds `src/a.c` and `src/b.c`, nothing from `sub`. -/
theorem find_flat_returns_direct_regular_files_witness :
    presentable "src" plainTree = true ∧ noSocketEntry plainTree = true ∧
    l_find (fsWith "src" plainTree) (searchSpec "src" none none) =
      some [[(2, "src/b.c"), (1, "src/a.c")]] :=
  ⟨by decide, by decide, by
    rw [show searchSpec "src" none none = LuaValue.table (fun key =>
        if key = "path" then LuaValue.string "src" else LuaValue.nil) from by
      unfold searchSpec
      congr 1
      funext key
      split_ifs <;> rfl]
    rw [find_flat_returns_direct_regular_files (fsWith "src" plainTree) _ "src" plainTree
      (by decide) (by decide) (by decide) (by decide) (by decide) (by decide) (by decide)]
    decide⟩

end Svadilfari
